import Mathlib

/-!
Verification development for the igraph-0.6.5 build configuration
(`src/igraph/src/igraph-0.6.5/config.h`) and for the spectral
graph-analysis subsystem described by the specification.

Part 1 embeds the configuration header: every `#define NAME body` line
becomes a `MacroDef.def1` entry and every `/* #undef NAME */` line a
`MacroDef.undef` entry, transcribed in file order.

Part 2 models the spectral subsystem (sparse matrix view, Krylov
eigensolver, convergence/restart controller).  The corresponding C code
is not part of the visible sources, so those definitions are modelled
from the specification text and marked as such in their doc comments.
-/

/-! ### Part 1: the configuration header -/

/-- Macro names occurring in `config.h`, one constructor per name,
in the order the names appear in the file. -/
inductive MacroName
  | HAVE_DLFCN_H
  | HAVE_EXPM1
  | HAVE_FABSL
  | HAVE_FINITE
  | HAVE_FMIN
  | HAVE_FTRUNCATE
  | HAVE_GLPK
  | HAVE_GMP
  | HAVE_INTTYPES_H
  | HAVE_ISNAN
  | HAVE_LIBARPACK
  | HAVE_LIBBLAS
  | HAVE_LIBF2C
  | HAVE_LIBLAPACK
  | HAVE_LIBXML
  | HAVE_LOG1P
  | HAVE_LOG2
  | HAVE_LOGBL
  | HAVE_MEMORY_H
  | HAVE_RINT
  | HAVE_RINTF
  | HAVE_ROUND
  | HAVE_SNPRINTF
  | HAVE_STDARG_H
  | HAVE_STDINT_H
  | HAVE_STDLIB_H
  | HAVE_STPCPY
  | HAVE_STRCASECMP
  | HAVE_STRDUP
  | HAVE_STRINGS_H
  | HAVE_STRING_H
  | HAVE_SYS_INT_TYPES_H
  | HAVE_SYS_STAT_H
  | HAVE_SYS_TYPES_H
  | HAVE_TIMES_H
  | HAVE_TIME_H
  | HAVE_TLS
  | HAVE_UNISTD_H
  | HAVE__STRDUP
  | IGRAPH_F77_SAVE
  | IGRAPH_THREAD_LOCAL
  | INTERNAL_ARPACK
  | INTERNAL_BLAS
  | INTERNAL_F2C
  | INTERNAL_GLPK
  | INTERNAL_LAPACK
  | LT_OBJDIR
  | PACKAGE
  | PACKAGE_BUGREPORT
  | PACKAGE_NAME
  | PACKAGE_STRING
  | PACKAGE_TARNAME
  | PACKAGE_URL
  | PACKAGE_VERSION
  | STDC_HEADERS
  | TLS
  | VERSION
  | YYTEXT_POINTER
deriving DecidableEq, Repr

/-- A token of a macro replacement body: either a literal token, or an
occurrence of another macro's name (subject to further expansion). -/
inductive CToken
  | lit (s : String)
  | ref (m : MacroName)
deriving DecidableEq, Repr

/-- One line of the configuration header: a `#define` with its
replacement body, or a commented-out `#undef` (the name is mentioned as
a switch but left undefined). -/
inductive MacroDef
  | def1 (name : MacroName) (body : List CToken)
  | undef (name : MacroName)
deriving DecidableEq, Repr

open MacroName CToken in
/-- The content of `config.h`, transcribed entry by entry in file
order. -/
def configH : List MacroDef :=
  [ .def1 HAVE_DLFCN_H [lit "1"]
  , .def1 HAVE_EXPM1 [lit "1"]
  , .def1 HAVE_FABSL [lit "1"]
  , .def1 HAVE_FINITE [lit "1"]
  , .def1 HAVE_FMIN [lit "1"]
  , .def1 HAVE_FTRUNCATE [lit "1"]
  , .def1 HAVE_GLPK [lit "1"]
  , .def1 HAVE_GMP [lit "1"]
  , .def1 HAVE_INTTYPES_H [lit "1"]
  , .def1 HAVE_ISNAN [lit "1"]
  , .undef HAVE_LIBARPACK
  , .undef HAVE_LIBBLAS
  , .undef HAVE_LIBF2C
  , .undef HAVE_LIBLAPACK
  , .def1 HAVE_LIBXML [lit "1"]
  , .def1 HAVE_LOG1P [lit "1"]
  , .def1 HAVE_LOG2 [lit "1"]
  , .def1 HAVE_LOGBL [lit "1"]
  , .def1 HAVE_MEMORY_H [lit "1"]
  , .def1 HAVE_RINT [lit "1"]
  , .def1 HAVE_RINTF [lit "1"]
  , .def1 HAVE_ROUND [lit "1"]
  , .def1 HAVE_SNPRINTF [lit "1"]
  , .def1 HAVE_STDARG_H [lit "1"]
  , .def1 HAVE_STDINT_H [lit "1"]
  , .def1 HAVE_STDLIB_H [lit "1"]
  , .def1 HAVE_STPCPY [lit "1"]
  , .def1 HAVE_STRCASECMP [lit "1"]
  , .def1 HAVE_STRDUP [lit "1"]
  , .def1 HAVE_STRINGS_H [lit "1"]
  , .def1 HAVE_STRING_H [lit "1"]
  , .undef HAVE_SYS_INT_TYPES_H
  , .def1 HAVE_SYS_STAT_H [lit "1"]
  , .def1 HAVE_SYS_TYPES_H [lit "1"]
  , .def1 HAVE_TIMES_H [lit "1"]
  , .def1 HAVE_TIME_H [lit "1"]
  , .def1 HAVE_TLS [lit "1"]
  , .def1 HAVE_UNISTD_H [lit "1"]
  , .undef HAVE__STRDUP
  , .def1 IGRAPH_F77_SAVE [lit "static", ref IGRAPH_THREAD_LOCAL]
  , .def1 IGRAPH_THREAD_LOCAL [lit "__thread"]
  , .def1 INTERNAL_ARPACK [lit "1"]
  , .def1 INTERNAL_BLAS [lit "1"]
  , .def1 INTERNAL_F2C [lit "1"]
  , .def1 INTERNAL_GLPK [lit "1"]
  , .def1 INTERNAL_LAPACK [lit "1"]
  , .def1 LT_OBJDIR [lit ".libs/"]
  , .def1 PACKAGE [lit "igraph"]
  , .def1 PACKAGE_BUGREPORT [lit "csardi.gabor@gmail.com"]
  , .def1 PACKAGE_NAME [lit "igraph"]
  , .def1 PACKAGE_STRING [lit "igraph", lit "0.6.5"]
  , .def1 PACKAGE_TARNAME [lit "igraph"]
  , .def1 PACKAGE_URL [lit ""]
  , .def1 PACKAGE_VERSION [lit "0.6.5"]
  , .def1 STDC_HEADERS [lit "1"]
  , .def1 TLS [lit "__thread"]
  , .def1 VERSION [lit "0.6.5"]
  , .def1 YYTEXT_POINTER [lit "1"] ]

/-- Whether the configuration defines macro `n` (some `#define n …`
line is present). -/
def definedB (cfg : List MacroDef) (n : MacroName) : Bool :=
  cfg.any fun d => match d with
    | .def1 m _ => m = n
    | .undef _ => false

/-- Whether the configuration mentions macro `n` as a switch but leaves
it undefined (a `/* #undef n */` line). -/
def undefMentionedB (cfg : List MacroDef) (n : MacroName) : Bool :=
  cfg.any fun d => match d with
    | .def1 _ _ => false
    | .undef m => m = n

/-- The replacement body of macro `n`, if the configuration defines it. -/
def bodyOf (cfg : List MacroDef) (n : MacroName) : Option (List CToken) :=
  cfg.findSome? fun d => match d with
    | .def1 m b => if m = n then some b else none
    | .undef _ => none

/-- The configuration defines macro `n` with exact body `b`. -/
def definedTo (cfg : List MacroDef) (n : MacroName) (b : List CToken) : Prop :=
  MacroDef.def1 n b ∈ cfg

instance : ∀ cfg n b, Decidable (definedTo cfg n b) := fun cfg n b =>
  inferInstanceAs (Decidable (_ ∈ cfg))

/-- One step of macro expansion over a token list: each occurrence of a
defined macro's name is replaced by that macro's body, all other tokens
are kept. -/
def expandOnce (cfg : List MacroDef) (ts : List CToken) : List CToken :=
  ts.flatMap fun t => match t with
    | .lit s => [.lit s]
    | .ref m => match bodyOf cfg m with
      | some b => b
      | none => [.ref m]

/-- The five INTERNAL_* selection flags paired with the corresponding
external-availability flag of the same numeric component. -/
def kernelFlagPairs : List (MacroName × MacroName) :=
  [ (.INTERNAL_ARPACK, .HAVE_LIBARPACK)
  , (.INTERNAL_BLAS, .HAVE_LIBBLAS)
  , (.INTERNAL_F2C, .HAVE_LIBF2C)
  , (.INTERNAL_LAPACK, .HAVE_LIBLAPACK)
  , (.INTERNAL_GLPK, .HAVE_GLPK) ]

/-! ### Part 2: the spectral subsystem, modelled from the spec

The eigensolver sources are not part of the visible artifact (only the
build header is), so the following definitions are modelled from the
specification text, sections 2 to 4 and 7, and each doc comment records
what is missing from the sources. -/

/-- Modelled from the spec: the error taxonomy of section 7 of the
specification (the eigensolver/LP sources carrying these codes are not
in the visible sources). -/
inductive SolveError
  | DimensionMismatch
  | NotConverged
  | Cancelled
  | InsufficientSpectrum
  | Infeasible
  | Unbounded
  | TimedOut
deriving DecidableEq, Repr

/-- Modelled from the spec: the data model of section 3; a graph is a
set of vertices with dense integer identifiers in `[0, n)` and a list
of edges referencing existing vertices. -/
structure Graph where
  n : ℕ
  edges : List (ℕ × ℕ)
deriving DecidableEq, Repr

/-- Modelled from the spec: the invariant of section 3 on graphs, for
the undirected unweighted graphs of the spectral subsystem; edge
endpoints are existing vertices and edges are not self-loops. -/
def Graph.wf (g : Graph) : Prop :=
  ∀ e ∈ g.edges, e.1 < g.n ∧ e.2 < g.n ∧ e.1 ≠ e.2

instance (g : Graph) : Decidable g.wf :=
  inferInstanceAs (Decidable (∀ e ∈ g.edges, _))

/-- Modelled from the spec: the structural matrix kinds of section 4.1.
The adjacency and Laplacian kinds are modelled; the normalized
Laplacian and modularity kinds involve irrational or global scalings
and are not needed by any claim. -/
inductive MatrixKind
  | adjacency
  | laplacian
deriving DecidableEq, Repr

/-- Pointwise sum of two vectors. -/
def vadd (a b : List ℚ) : List ℚ := List.zipWith (· + ·) a b

/-- Pointwise difference of two vectors. -/
def vsub (a b : List ℚ) : List ℚ := List.zipWith (· - ·) a b

/-- Scalar multiple of a vector. -/
def vscale (c : ℚ) (v : List ℚ) : List ℚ := v.map (c * ·)

/-- Dot product of two vectors. -/
def dot (a b : List ℚ) : ℚ := (List.zipWith (· * ·) a b).sum

/-- Supremum norm of a vector, the largest absolute value of an entry. -/
def supNorm (v : List ℚ) : ℚ := v.foldr (fun a m => max |a| m) 0

/-- Number of edges joining `i` and `j` (in either orientation) in an
edge list. -/
def adjCountE (es : List (ℕ × ℕ)) (i j : ℕ) : ℕ :=
  es.countP fun e => decide ((e.1 = i ∧ e.2 = j) ∨ (e.1 = j ∧ e.2 = i))

/-- Number of edge endpoints incident to vertex `i` in an edge list. -/
def degSumE (es : List (ℕ × ℕ)) (i : ℕ) : ℕ :=
  (es.map fun e => (if e.1 = i then 1 else 0) + (if e.2 = i then 1 else 0)).sum

/-- Modelled from the spec: entry `(i, j)` of the structural matrix of
an edge list; the adjacency matrix counts edges, the Laplacian is the
degree diagonal minus the adjacency matrix. -/
def entryE (es : List (ℕ × ℕ)) : MatrixKind → ℕ → ℕ → ℚ
  | .adjacency, i, j => adjCountE es i j
  | .laplacian, i, j =>
      (if i = j then (degSumE es i : ℚ) else 0) - adjCountE es i j

/-- Entry `(i, j)` of the structural matrix of a graph. -/
def matEntry (g : Graph) (k : MatrixKind) (i j : ℕ) : ℚ := entryE g.edges k i j

/-- Contribution of a single edge to entry `i` of the sparse
matrix-vector product. -/
def edgeTerm (k : MatrixKind) (x : List ℚ) (i : ℕ) (e : ℕ × ℕ) : ℚ :=
  match k with
  | .adjacency =>
      (if e.1 = i then x.getD e.2 0 else 0) + (if e.2 = i then x.getD e.1 0 else 0)
  | .laplacian =>
      (if e.1 = i then x.getD i 0 - x.getD e.2 0 else 0)
      + (if e.2 = i then x.getD i 0 - x.getD e.1 0 else 0)

/-- Modelled from the spec (section 4.1): the sparse matrix-vector
product, computed by accumulating per-edge contributions without
forming the matrix explicitly. -/
def applyRaw (g : Graph) (k : MatrixKind) (x : List ℚ) : List ℚ :=
  (List.range g.n).map fun i => (g.edges.map (edgeTerm k x i)).sum

/-- The same matrix-vector product computed from the explicit matrix
entries, `y i = sum of matEntry i j * x j`. -/
def denseApply (g : Graph) (k : MatrixKind) (x : List ℚ) : List ℚ :=
  (List.range g.n).map fun i =>
    ∑ j ∈ Finset.range g.n, matEntry g k i j * x.getD j 0

/-- Modelled from the spec (section 4.1): the Sparse Matrix View's
`apply` operation; it fails with `DimensionMismatch` when the input
vector length differs from the vertex count, and otherwise returns the
sparse matrix-vector product.  As a Lean function it is pure and leaves
the graph unchanged. -/
def Graph.apply (g : Graph) (k : MatrixKind) (x : List ℚ) :
    Except SolveError (List ℚ) :=
  if x.length = g.n then .ok (applyRaw g k x) else .error .DimensionMismatch

/-- Modelled from the spec: the two outcomes the Eigenpair Result can
report (section 4.2); an exhausted controller reports `NotConverged`
with the best partial set (section 4.3). -/
inductive SolveStatus
  | Converged
  | NotConverged
deriving DecidableEq, Repr

/-- Modelled from the spec: the spectral selection criteria of
section 4.2. -/
inductive Criterion
  | largestMagnitude
  | largestAlgebraic
  | smallestMagnitude
  | smallestAlgebraic
deriving DecidableEq, Repr

/-- Ranking relation on Ritz values induced by a selection criterion;
`critLE c a b` holds when `a` is at least as wanted as `b`. -/
def critLE (c : Criterion) (a b : ℚ) : Bool :=
  match c with
  | .largestMagnitude => decide (|b| ≤ |a|)
  | .largestAlgebraic => decide (b ≤ a)
  | .smallestMagnitude => decide (|a| ≤ |b|)
  | .smallestAlgebraic => decide (a ≤ b)

/-- Modelled from the spec: one entry of the Eigenpair Result of
section 3, a Ritz value and vector with the estimated residual and the
per-pair convergence flag. -/
structure RitzPair where
  value : ℚ
  vector : List ℚ
  residual : ℚ
  converged : Bool
deriving DecidableEq, Repr, Inhabited

/-- Residual of a candidate eigenpair, the norm of `A v - lam v`
(section 4.2 of the spec), taken in the supremum norm. -/
def resNorm (g : Graph) (k : MatrixKind) (lam : ℚ) (v : List ℚ) : ℚ :=
  supNorm (vsub (applyRaw g k v) (vscale lam v))

/-- Modelled from the spec: packaging of a candidate eigenpair with the
acceptance test of section 4.2, residual strictly below
`eps * |value|`. -/
def mkRitz (g : Graph) (k : MatrixKind) (eps lam : ℚ) (v : List ℚ) : RitzPair :=
  ⟨lam, v, resNorm g k lam v, decide (resNorm g k lam v < eps * |lam|)⟩

/-- Modelled from the spec: the inputs of a solve request of
section 4.2: matrix kind, requested count `k`, selection criterion,
subspace dimension `m`, restart/iteration budget and relative
tolerance. -/
structure EigParams where
  kind : MatrixKind
  k : ℕ
  crit : Criterion
  m : ℕ
  maxIter : ℕ
  eps : ℚ
deriving DecidableEq, Repr

/-- Modelled from the spec: the external numeric collaborator of
section 6, a dense small-matrix eigensolver returning candidate
eigenvalues with coordinate vectors in the Krylov basis. -/
structure Collab where
  denseEig : List (List ℚ) → List (ℚ × List ℚ)

/-- Zero vector of length `n`. -/
def zeroVec (n : ℕ) : List ℚ := List.replicate n 0

/-- Lift of a small coordinate vector through the Krylov basis,
`sum of y i * basis i`. -/
def liftVec (n : ℕ) (basis : List (List ℚ)) (y : List ℚ) : List ℚ :=
  (List.zipWith vscale y basis).foldl vadd (zeroVec n)

/-- Projected small matrix `H i j = dot (basis i) (A (basis j))` of
section 4.2 of the spec. -/
def hmat (g : Graph) (k : MatrixKind) (basis : List (List ℚ)) : List (List ℚ) :=
  basis.map fun bi => basis.map fun bj => dot bi (applyRaw g k bj)

/-- Gram-Schmidt projection coefficient of `w` on `b` (zero on a zero
direction). -/
def projCoeff (b w : List ℚ) : ℚ :=
  if dot b b = 0 then 0 else dot b w / dot b b

/-- Gram-Schmidt orthogonalization of `v` against a basis. -/
def orthogonalize (basis : List (List ℚ)) (v : List ℚ) : List ℚ :=
  basis.foldl (fun w b => vsub w (vscale (projCoeff b w) b)) v

/-- Modelled from the spec: the next Krylov direction of section 4.2,
`apply` on the last basis vector followed by Gram-Schmidt
orthogonalization; the very first direction is the all-ones start
vector. -/
def extendVec (g : Graph) (k : MatrixKind) (basis : List (List ℚ)) : List ℚ :=
  match basis.getLast? with
  | none => List.replicate g.n 1
  | some b => orthogonalize basis (applyRaw g k b)

/-- Number of pairs carrying a set convergence flag. -/
def countConverged (ps : List RitzPair) : ℕ := ps.countP (·.converged)

/-- Modelled from the spec: ranking of the candidate pairs by the
selection criterion and retention of the `k` most wanted. -/
def selectTop (c : Criterion) (k : ℕ) (ps : List RitzPair) : List RitzPair :=
  (ps.insertionSort fun a b => critLE c a.value b.value = true).take k

/-- Modelled from the spec: the Projecting phase of section 4.3; solve
the dense projected eigenproblem through the collaborator, lift the
candidates, compute residuals, apply the acceptance test, and rank. -/
def project (g : Graph) (p : EigParams) (co : Collab)
    (basis : List (List ℚ)) : List RitzPair :=
  selectTop p.crit p.k
    ((co.denseEig (hmat g p.kind basis)).map fun c =>
      mkRitz g p.kind p.eps c.1 (liftVec g.n basis c.2))

/-- Modelled from the spec: basis growth of section 4.3; alternate
Expanding (add one Krylov vector) and Projecting until all `k`
requested pairs meet tolerance or the basis reaches dimension `m`.
Returns the last projection, the final basis, and whether the
convergence test passed. -/
def innerLoop (g : Graph) (p : EigParams) (co : Collab) :
    List (List ℚ) → ℕ → List RitzPair × List (List ℚ) × Bool
  | basis, 0 =>
      let basis2 := basis ++ [extendVec g p.kind basis]
      let ps := project g p co basis2
      (ps, basis2, decide (p.k ≤ countConverged ps))
  | basis, gas + 1 =>
      let basis2 := basis ++ [extendVec g p.kind basis]
      let ps := project g p co basis2
      if p.k ≤ countConverged ps then (ps, basis2, true)
      else if basis2.length < p.m then innerLoop g p co basis2 gas
      else (ps, basis2, false)

/-- Modelled from the spec: the Eigenpair Result of section 3 with its
explicit status (section 4.2) and the basis size at the final
projection. -/
structure EigResult where
  pairs : List RitzPair
  status : SolveStatus
  basisSize : ℕ
deriving DecidableEq, Repr

/-- Modelled from the spec: the Restarting compression of section 4.3,
keeping the best `p < m` Ritz vectors. -/
def restartBasis (m : ℕ) (ps : List RitzPair) : List (List ℚ) :=
  (ps.map (·.vector)).take (m - 1)

/-- Modelled from the spec: the restart loop of section 4.3; each round
grows the basis to `m`; on full convergence the result is `Converged`,
otherwise the basis is compressed and the round repeated until the
restart budget is exhausted, which reports `NotConverged` with the best
partial set. -/
def outerLoop (g : Graph) (p : EigParams) (co : Collab) :
    ℕ → List (List ℚ) → EigResult
  | 0, basis =>
      let t := innerLoop g p co basis p.m
      if t.2.2 then ⟨t.1, .Converged, t.2.1.length⟩
      else ⟨t.1, .NotConverged, t.2.1.length⟩
  | r + 1, basis =>
      let t := innerLoop g p co basis p.m
      if t.2.2 then ⟨t.1, .Converged, t.2.1.length⟩
      else outerLoop g p co r (restartBasis p.m t.1)

/-- Modelled from the spec: the caller-facing `computeSpectrum` solve of
section 6, run from an empty Krylov state with the configured restart
budget. -/
def solve (g : Graph) (p : EigParams) (co : Collab) : EigResult :=
  outerLoop g p co p.maxIter []

/-- Modelled from the spec: the phases of the Convergence and Restart
Controller state machine of section 4.3. -/
inductive CtrlPhase
  | initializing
  | expanding
  | projecting
  | restarting
  | converged
  | exhausted
deriving DecidableEq, Repr

/-- Modelled from the spec: the full controller state: current phase,
Krylov basis, last Ritz set, and remaining restart budget. -/
structure CtrlState where
  phase : CtrlPhase
  basis : List (List ℚ)
  ritz : List RitzPair
  restartsLeft : ℕ
deriving DecidableEq, Repr

/-- Modelled from the spec: one transition of the controller state
machine of section 4.3; `none` means no transition exists (a terminal
state). -/
def ctrlStep (g : Graph) (p : EigParams) (co : Collab)
    (s : CtrlState) : Option CtrlState :=
  match s.phase with
  | .initializing => some { s with phase := .expanding }
  | .expanding =>
      some { s with phase := .projecting,
                    basis := s.basis ++ [extendVec g p.kind s.basis] }
  | .projecting =>
      let ps := project g p co s.basis
      if p.k ≤ countConverged ps then
        some { s with phase := .converged, ritz := ps }
      else if s.basis.length < p.m then
        some { s with phase := .expanding, ritz := ps }
      else some { s with phase := .restarting, ritz := ps }
  | .restarting =>
      match s.restartsLeft with
      | 0 => some { s with phase := .exhausted }
      | r + 1 =>
          some { s with phase := .expanding,
                        basis := restartBasis p.m s.ritz,
                        restartsLeft := r }
  | .converged => none
  | .exhausted => none

/-- Iteration of the controller: take up to `n` transitions, stopping
at a state with no transition. -/
def ctrlIter (g : Graph) (p : EigParams) (co : Collab) :
    ℕ → CtrlState → CtrlState
  | 0, s => s
  | n + 1, s =>
      match ctrlStep g p co s with
      | none => s
      | some s2 => ctrlIter g p co n s2

/-- Concrete single-edge graph on two vertices used to evaluate the
solver claims. -/
def gW : Graph := ⟨2, [(0, 1)]⟩

/-- Concrete solve parameters: adjacency matrix, one requested pair,
subspace dimension two, tolerance one. -/
def pW : EigParams := ⟨.adjacency, 1, .largestMagnitude, 2, 3, 1⟩

/-- Concrete dense-eigensolver collaborator returning the candidate
value 2 with coordinate vector `[1]`. -/
def coW : Collab := ⟨fun _ => [(2, [1])]⟩

/-- The Ritz pair the concrete solve produces. -/
def qW : RitzPair := mkRitz gW .adjacency 1 2 [1, 1]

/-- Concrete parameters with no restart room, `m = k = 1`. -/
def pW6 : EigParams := ⟨.adjacency, 1, .largestMagnitude, 1, 2, 1⟩

/-- Concrete controller state sitting in the terminal Converged
phase. -/
def sW : CtrlState := ⟨.converged, [], [], 0⟩

/-- Boolean adjacency test: some edge joins `i` and `j` in either
orientation. -/
def Graph.adjB (g : Graph) (i j : ℕ) : Bool :=
  g.edges.any fun e => decide ((e.1 = i ∧ e.2 = j) ∨ (e.1 = j ∧ e.2 = i))

/-- Modelled from the spec: the simple graph underlying an undirected
unweighted Graph of the data model of section 3. -/
def Graph.toSimpleGraph (g : Graph) : SimpleGraph (Fin g.n) where
  Adj i j := i ≠ j ∧ g.adjB i j = true
  symm := by
    intro i j h
    refine ⟨h.1.symm, ?_⟩
    simp only [Graph.adjB, List.any_eq_true, decide_eq_true_eq] at h ⊢
    obtain ⟨e, he, hor⟩ := h.2
    exact ⟨e, he, hor.symm⟩
  loopless := fun i h => h.1 rfl

instance (g : Graph) : DecidableRel (g.toSimpleGraph).Adj :=
  fun i j => inferInstanceAs (Decidable (i ≠ j ∧ g.adjB i j = true))

/-- Number of connected components of the graph. -/
def numComponents (g : Graph) : ℕ :=
  Fintype.card (g.toSimpleGraph).ConnectedComponent

/-- Modelled from the spec: well-formedness of an undirected unweighted
simple graph: edge endpoints in range, no self-loops, and no unordered
pair of vertices listed twice. -/
def Graph.wfSimple (g : Graph) : Prop :=
  g.wf ∧ List.Pairwise
    (fun e f => ¬((f.1 = e.1 ∧ f.2 = e.2) ∨ (f.1 = e.2 ∧ f.2 = e.1))) g.edges

/-- Concrete scenario of section 8 of the spec: two disjoint triangles
on six vertices. -/
def twoTriangles : Graph := ⟨6, [(0, 1), (1, 2), (2, 0), (3, 4), (4, 5), (5, 3)]⟩

/-- Real Laplacian matrix of a graph: the real cast of the rational
structural-matrix entries of kind laplacian (the matrix the symmetric
Sparse Operator of that kind represents). -/
def lapMatrixOf (g : Graph) : Matrix (Fin g.n) (Fin g.n) ℝ :=
  Matrix.of fun i j => ((matEntry g .laplacian i j : ℚ) : ℝ)

/-- C1: the configuration bundles the internal ARPACK, BLAS, LAPACK,
F2C and GLPK implementations (each INTERNAL_* flag is defined to 1),
and each of the four external-library switches HAVE_LIBARPACK,
HAVE_LIBBLAS, HAVE_LIBF2C, HAVE_LIBLAPACK exists in the header as a
commented-out switch and is left undefined in this build. -/
theorem config_internal_kernels_selected :
    definedTo configH .INTERNAL_ARPACK [.lit "1"]
    ∧ definedTo configH .INTERNAL_BLAS [.lit "1"]
    ∧ definedTo configH .INTERNAL_F2C [.lit "1"]
    ∧ definedTo configH .INTERNAL_LAPACK [.lit "1"]
    ∧ definedTo configH .INTERNAL_GLPK [.lit "1"]
    ∧ (undefMentionedB configH .HAVE_LIBARPACK = true
        ∧ definedB configH .HAVE_LIBARPACK = false)
    ∧ (undefMentionedB configH .HAVE_LIBBLAS = true
        ∧ definedB configH .HAVE_LIBBLAS = false)
    ∧ (undefMentionedB configH .HAVE_LIBF2C = true
        ∧ definedB configH .HAVE_LIBF2C = false)
    ∧ (undefMentionedB configH .HAVE_LIBLAPACK = true
        ∧ definedB configH .HAVE_LIBLAPACK = false) := by
  decide

/-- C9: thread-local storage is enabled: HAVE_TLS is defined to 1, both
TLS and IGRAPH_THREAD_LOCAL expand to the `__thread` storage keyword,
and the body of IGRAPH_F77_SAVE, namely `static IGRAPH_THREAD_LOCAL`,
expands in one macro-expansion step to `static __thread`, so each
Fortran-derived SAVE variable declared with it is per-thread static
state. -/
theorem config_tls_f77_save :
    definedTo configH .HAVE_TLS [.lit "1"]
    ∧ definedTo configH .TLS [.lit "__thread"]
    ∧ definedTo configH .IGRAPH_THREAD_LOCAL [.lit "__thread"]
    ∧ bodyOf configH .IGRAPH_F77_SAVE
        = some [.lit "static", .ref .IGRAPH_THREAD_LOCAL]
    ∧ expandOnce configH [.lit "static", .ref .IGRAPH_THREAD_LOCAL]
        = [.lit "static", .lit "__thread"] := by
  decide

/-- C10: for every one of the five numeric kernels the INTERNAL_* flag
is defined, and the corresponding external-availability flag is defined
exactly for the GLPK pair: HAVE_GLPK and INTERNAL_GLPK are both defined
to 1, while HAVE_LIBARPACK, HAVE_LIBBLAS, HAVE_LIBF2C and HAVE_LIBLAPACK
are all undefined, making GLPK the one kernel whose external flag
coexists with the internal selection. -/
theorem config_glpk_flag_coexistence :
    definedTo configH .HAVE_GLPK [.lit "1"]
    ∧ definedTo configH .INTERNAL_GLPK [.lit "1"]
    ∧ kernelFlagPairs.all
        (fun pr => definedB configH pr.1
          && (definedB configH pr.2 == (pr.1 = MacroName.INTERNAL_GLPK : Bool)))
      = true := by
  decide

lemma adjCountE_single (u v i j : ℕ) (hne : u ≠ v) :
    (adjCountE [(u, v)] i j : ℚ)
      = (if u = i ∧ v = j then 1 else 0) + (if u = j ∧ v = i then 1 else 0) := by
  by_cases h1 : u = i ∧ v = j <;> by_cases h2 : u = j ∧ v = i
  · exact absurd (h1.1.trans h2.2.symm) hne
  all_goals simp [adjCountE, List.countP_cons, h1, h2] <;> omega

lemma sum_indicator_range (n a : ℕ) (f : ℕ → ℚ) (ha : a < n) :
    ∑ j ∈ Finset.range n, (if a = j then (1 : ℚ) else 0) * f j = f a := by
  have h : ∀ j ∈ Finset.range n,
      (if a = j then (1 : ℚ) else 0) * f j = if j = a then f j else 0 := by
    intro j _
    by_cases hj : j = a
    · simp [hj]
    · have h2 : ¬a = j := fun h3 => hj h3.symm
      simp [hj, h2]
  rw [Finset.sum_congr rfl h, Finset.sum_ite_eq' (Finset.range n) a f]
  simp [Finset.mem_range.mpr ha]

lemma single_adj_sum (n : ℕ) (x : List ℚ) (u v : ℕ)
    (h1 : u < n) (h2 : v < n) (hne : u ≠ v) (i : ℕ) :
    ∑ j ∈ Finset.range n, (adjCountE [(u, v)] i j : ℚ) * x.getD j 0
      = (if u = i then x.getD v 0 else 0) + (if v = i then x.getD u 0 else 0) := by
  have hstep : ∀ j ∈ Finset.range n,
      (adjCountE [(u, v)] i j : ℚ) * x.getD j 0
        = (if u = i ∧ v = j then 1 else 0) * x.getD j 0
          + (if u = j ∧ v = i then 1 else 0) * x.getD j 0 := by
    intro j _
    rw [adjCountE_single u v i j hne, add_mul]
  rw [Finset.sum_congr rfl hstep, Finset.sum_add_distrib]
  congr 1
  · by_cases hu : u = i
    · subst hu
      have h : ∀ j ∈ Finset.range n,
          (if u = u ∧ v = j then (1 : ℚ) else 0) * x.getD j 0
            = (if v = j then (1 : ℚ) else 0) * x.getD j 0 := by
        intro j _
        simp
      rw [Finset.sum_congr rfl h, sum_indicator_range n v _ h2]
      simp
    · simp [hu]
  · by_cases hv : v = i
    · subst hv
      have h : ∀ j ∈ Finset.range n,
          (if u = j ∧ v = v then (1 : ℚ) else 0) * x.getD j 0
            = (if u = j then (1 : ℚ) else 0) * x.getD j 0 := by
        intro j _
        simp
      rw [Finset.sum_congr rfl h, sum_indicator_range n u _ h1]
      simp
    · simp [hv]

lemma entryE_cons (e : ℕ × ℕ) (es : List (ℕ × ℕ)) (k : MatrixKind) (i j : ℕ) :
    entryE (e :: es) k i j = entryE [e] k i j + entryE es k i j := by
  cases k with
  | adjacency =>
      simp [entryE, adjCountE, List.countP_cons]
      push_cast
      ring
  | laplacian =>
      by_cases hij : i = j <;>
        simp [entryE, adjCountE, degSumE, List.countP_cons, hij] <;>
        push_cast <;> ring

lemma single_edge_sum (k : MatrixKind) (n : ℕ) (x : List ℚ) (u v : ℕ)
    (h1 : u < n) (h2 : v < n) (hne : u ≠ v) (i : ℕ) (hi : i < n) :
    ∑ j ∈ Finset.range n, entryE [(u, v)] k i j * x.getD j 0
      = edgeTerm k x i (u, v) := by
  cases k with
  | adjacency =>
      simpa [entryE, edgeTerm] using single_adj_sum n x u v h1 h2 hne i
  | laplacian =>
      have hsplit : ∀ j ∈ Finset.range n,
          entryE [(u, v)] .laplacian i j * x.getD j 0
            = (if i = j then (degSumE [(u, v)] i : ℚ) else 0) * x.getD j 0
              - (adjCountE [(u, v)] i j : ℚ) * x.getD j 0 := by
        intro j _
        simp [entryE, sub_mul]
      rw [Finset.sum_congr rfl hsplit, Finset.sum_sub_distrib,
        single_adj_sum n x u v h1 h2 hne i]
      have hdiag : ∑ j ∈ Finset.range n,
          (if i = j then (degSumE [(u, v)] i : ℚ) else 0) * x.getD j 0
            = (degSumE [(u, v)] i : ℚ) * x.getD i 0 := by
        have h : ∀ j ∈ Finset.range n,
            (if i = j then (degSumE [(u, v)] i : ℚ) else 0) * x.getD j 0
              = (degSumE [(u, v)] i : ℚ)
                  * ((if i = j then (1 : ℚ) else 0) * x.getD j 0) := by
          intro j _
          by_cases hij : i = j <;> simp [hij]
        rw [Finset.sum_congr rfl h, ← Finset.mul_sum,
          sum_indicator_range n i _ hi]
      rw [hdiag]
      have hds : (degSumE [(u, v)] i : ℚ)
          = (if u = i then 1 else 0) + (if v = i then 1 else 0) := by
        by_cases hu : u = i <;> by_cases hv : v = i <;>
          simp [degSumE, hu, hv] <;> push_cast <;> norm_num
      rw [hds]
      by_cases hu : u = i <;> by_cases hv : v = i
      · exact absurd (hu.trans hv.symm) hne
      · subst hu
        simp [edgeTerm, hv] <;> ring
      · subst hv
        simp [edgeTerm, hu] <;> ring
      · simp [edgeTerm, hu, hv]

lemma edge_sum_eq_entry_sum (k : MatrixKind) (n : ℕ) (x : List ℚ)
    (es : List (ℕ × ℕ)) (hb : ∀ e ∈ es, e.1 < n ∧ e.2 < n ∧ e.1 ≠ e.2)
    (i : ℕ) (hi : i < n) :
    (es.map (edgeTerm k x i)).sum
      = ∑ j ∈ Finset.range n, entryE es k i j * x.getD j 0 := by
  induction es with
  | nil => cases k <;> simp [entryE, adjCountE, degSumE]
  | cons e es ih =>
      obtain ⟨h1, h2, hne⟩ := hb e (List.mem_cons_self e es)
      have hb2 : ∀ f ∈ es, f.1 < n ∧ f.2 < n ∧ f.1 ≠ f.2 := fun f hf =>
        hb f (List.mem_cons_of_mem e hf)
      have hsplit : ∀ j ∈ Finset.range n,
          entryE (e :: es) k i j * x.getD j 0
            = entryE [e] k i j * x.getD j 0 + entryE es k i j * x.getD j 0 := by
        intro j _
        rw [entryE_cons, add_mul]
      calc ((e :: es).map (edgeTerm k x i)).sum
          = edgeTerm k x i e + (es.map (edgeTerm k x i)).sum := by
            simp
        _ = edgeTerm k x i e
            + ∑ j ∈ Finset.range n, entryE es k i j * x.getD j 0 := by
            rw [ih hb2]
        _ = ∑ j ∈ Finset.range n, entryE (e :: es) k i j * x.getD j 0 := by
            rw [Finset.sum_congr rfl hsplit, Finset.sum_add_distrib,
              single_edge_sum k n x e.1 e.2 h1 h2 hne i hi]

lemma applyRaw_eq_denseApply (g : Graph) (k : MatrixKind) (x : List ℚ)
    (hwf : g.wf) : applyRaw g k x = denseApply g k x := by
  unfold applyRaw denseApply
  refine List.map_congr_left fun i hin => ?_
  exact edge_sum_eq_entry_sum k g.n x g.edges hwf i (List.mem_range.mp hin)

/-- C3: the Sparse Matrix View's `apply` fails with `DimensionMismatch`
exactly when the input vector length differs from the vertex count, and
on matching lengths it returns the matrix-vector product of the
explicit structural matrix with the input (the sparse edge-accumulation
equals the dense product; as a Lean function `apply` is pure and leaves
the graph unchanged). -/
theorem apply_dim_check_and_product (g : Graph) (k : MatrixKind)
    (x : List ℚ) (hwf : g.wf) :
    (g.apply k x = Except.error SolveError.DimensionMismatch ↔ x.length ≠ g.n)
    ∧ (x.length = g.n → g.apply k x = Except.ok (denseApply g k x)) := by
  constructor
  · constructor
    · intro herr hlen
      simp [Graph.apply, hlen] at herr
    · intro hlen
      simp [Graph.apply, hlen]
  · intro hlen
    simp [Graph.apply, hlen, applyRaw_eq_denseApply g k x hwf]

/-- Concrete evaluation of C3 on the single-edge graph on two vertices
and the vector `[1, 2]`. -/
theorem apply_dim_check_and_product_witness :
    (Graph.mk 2 [(0, 1)]).wf
    ∧ ((Graph.mk 2 [(0, 1)]).apply .laplacian [1, 2]
          = Except.error SolveError.DimensionMismatch
        ↔ [(1 : ℚ), 2].length ≠ (Graph.mk 2 [(0, 1)]).n)
    ∧ ([(1 : ℚ), 2].length = (Graph.mk 2 [(0, 1)]).n →
        (Graph.mk 2 [(0, 1)]).apply .laplacian [1, 2]
          = Except.ok (denseApply (Graph.mk 2 [(0, 1)]) .laplacian [1, 2])) :=
  ⟨by decide, apply_dim_check_and_product (Graph.mk 2 [(0, 1)]) .laplacian
    [1, 2] (by decide)⟩

lemma project_mem (g : Graph) (p : EigParams) (co : Collab)
    (basis : List (List ℚ)) (q : RitzPair) (hq : q ∈ project g p co basis) :
    ∃ lam v, q = mkRitz g p.kind p.eps lam v := by
  unfold project selectTop at hq
  have h2 := (List.mem_insertionSort _).mp (List.mem_of_mem_take hq)
  obtain ⟨c, _, rfl⟩ := List.mem_map.mp h2
  exact ⟨c.1, liftVec g.n basis c.2, rfl⟩

lemma innerLoop_flag (g : Graph) (p : EigParams) (co : Collab) :
    ∀ (gas : ℕ) (basis : List (List ℚ)),
      (innerLoop g p co basis gas).2.2
        = decide (p.k ≤ countConverged (innerLoop g p co basis gas).1) := by
  intro gas
  induction gas with
  | zero =>
      intro basis
      simp [innerLoop]
  | succ gas ih =>
      intro basis
      by_cases h : p.k ≤ countConverged
          (project g p co (basis ++ [extendVec g p.kind basis]))
      · simp [innerLoop, h]
      · by_cases hlen : basis.length + 1 < p.m
        · simpa [innerLoop, h, hlen] using ih (basis ++ [extendVec g p.kind basis])
        · simp [innerLoop, h, hlen]

lemma innerLoop_mem (g : Graph) (p : EigParams) (co : Collab) :
    ∀ (gas : ℕ) (basis : List (List ℚ)) (q : RitzPair),
      q ∈ (innerLoop g p co basis gas).1 →
        ∃ lam v, q = mkRitz g p.kind p.eps lam v := by
  intro gas
  induction gas with
  | zero =>
      intro basis q hq
      rw [innerLoop] at hq
      exact project_mem g p co _ q hq
  | succ gas ih =>
      intro basis q hq
      rw [innerLoop] at hq
      by_cases h : p.k ≤ countConverged
          (project g p co (basis ++ [extendVec g p.kind basis]))
      · rw [if_pos h] at hq
        exact project_mem g p co _ q hq
      · rw [if_neg h] at hq
        by_cases hlen : (basis ++ [extendVec g p.kind basis]).length < p.m
        · rw [if_pos hlen] at hq
          exact ih _ q hq
        · rw [if_neg hlen] at hq
          exact project_mem g p co _ q hq

lemma innerLoop_basis_le (g : Graph) (p : EigParams) (co : Collab) :
    ∀ (gas : ℕ) (basis : List (List ℚ)), basis.length + 1 ≤ p.m →
      (innerLoop g p co basis gas).2.1.length ≤ p.m := by
  intro gas
  induction gas with
  | zero =>
      intro basis hb
      simpa [innerLoop] using hb
  | succ gas ih =>
      intro basis hb
      rw [innerLoop]
      by_cases h : p.k ≤ countConverged
          (project g p co (basis ++ [extendVec g p.kind basis]))
      · simpa [h] using hb
      · rw [if_neg h]
        by_cases hlen : (basis ++ [extendVec g p.kind basis]).length < p.m
        · rw [if_pos hlen]
          exact ih _ (Nat.succ_le_of_lt hlen)
        · rw [if_neg hlen]
          simpa using hb

lemma outerLoop_mem (g : Graph) (p : EigParams) (co : Collab) :
    ∀ (r : ℕ) (basis : List (List ℚ)) (q : RitzPair),
      q ∈ (outerLoop g p co r basis).pairs →
        ∃ lam v, q = mkRitz g p.kind p.eps lam v := by
  intro r
  induction r with
  | zero =>
      intro basis q hq
      rw [outerLoop] at hq
      by_cases h : (innerLoop g p co basis p.m).2.2
      · rw [if_pos h] at hq
        exact innerLoop_mem g p co p.m basis q hq
      · rw [if_neg h] at hq
        exact innerLoop_mem g p co p.m basis q hq
  | succ r ih =>
      intro basis q hq
      rw [outerLoop] at hq
      by_cases h : (innerLoop g p co basis p.m).2.2
      · rw [if_pos h] at hq
        exact innerLoop_mem g p co p.m basis q hq
      · rw [if_neg h] at hq
        exact ih _ q hq

lemma outerLoop_status (g : Graph) (p : EigParams) (co : Collab) :
    ∀ (r : ℕ) (basis : List (List ℚ)),
      (outerLoop g p co r basis).status = SolveStatus.Converged
        ↔ p.k ≤ countConverged (outerLoop g p co r basis).pairs := by
  intro r
  induction r with
  | zero =>
      intro basis
      have hf := innerLoop_flag g p co p.m basis
      cases ht : (innerLoop g p co basis p.m).2.2 with
      | true =>
          rw [ht] at hf
          have hk := of_decide_eq_true hf.symm
          simp [outerLoop, ht, hk]
      | false =>
          rw [ht] at hf
          have hk : ¬p.k ≤ countConverged (innerLoop g p co basis p.m).1 :=
            of_decide_eq_false hf.symm
          simp [outerLoop, ht, hk]
  | succ r ih =>
      intro basis
      have hf := innerLoop_flag g p co p.m basis
      cases ht : (innerLoop g p co basis p.m).2.2 with
      | true =>
          rw [ht] at hf
          have hk := of_decide_eq_true hf.symm
          simp [outerLoop, ht, hk]
      | false =>
          rw [ht] at hf
          simpa [outerLoop, ht] using ih (restartBasis p.m (innerLoop g p co basis p.m).1)

lemma outerLoop_basis_le (g : Graph) (p : EigParams) (co : Collab)
    (hm : 1 ≤ p.m) :
    ∀ (r : ℕ) (basis : List (List ℚ)), basis.length + 1 ≤ p.m →
      (outerLoop g p co r basis).basisSize ≤ p.m := by
  intro r
  induction r with
  | zero =>
      intro basis hb
      have h1 := innerLoop_basis_le g p co p.m basis hb
      rw [outerLoop]
      by_cases h : (innerLoop g p co basis p.m).2.2
      · simpa [h] using h1
      · simpa [h] using h1
  | succ r ih =>
      intro basis hb
      have h1 := innerLoop_basis_le g p co p.m basis hb
      rw [outerLoop]
      by_cases h : (innerLoop g p co basis p.m).2.2
      · simpa [h] using h1
      · rw [if_neg h]
        refine ih _ ?_
        have h2 : (restartBasis p.m (innerLoop g p co basis p.m).1).length
            ≤ p.m - 1 := by
          simp [restartBasis]
        omega

lemma solve_pairs_shape (g : Graph) (p : EigParams) (co : Collab)
    (q : RitzPair) (hq : q ∈ (solve g p co).pairs) :
    ∃ lam v, q = mkRitz g p.kind p.eps lam v :=
  outerLoop_mem g p co p.maxIter [] q hq

lemma solve_flag_eq_test (g : Graph) (p : EigParams) (co : Collab)
    (q : RitzPair) (hq : q ∈ (solve g p co).pairs) :
    q.converged = decide (resNorm g p.kind q.value q.vector < p.eps * |q.value|) := by
  obtain ⟨lam, v, rfl⟩ := solve_pairs_shape g p co q hq
  rfl

/-- C2: every eigenpair the solver reports with a set convergence flag
passed the section 4.2 acceptance test `residual < eps * |value|`, and
therefore (for a nonnegative tolerance) satisfies the relative residual
bound `norm (A v - lam v) <= eps * max 1 |lam|`; a pair violating that
bound is never flagged converged. -/
theorem accepted_pairs_meet_relative_bound (g : Graph) (p : EigParams)
    (co : Collab) (heps : 0 ≤ p.eps) :
    ∀ q ∈ (solve g p co).pairs, q.converged = true →
      supNorm (vsub (applyRaw g p.kind q.vector) (vscale q.value q.vector))
        ≤ p.eps * max 1 |q.value| := by
  intro q hq hc
  rw [solve_flag_eq_test g p co q hq] at hc
  have hlt : resNorm g p.kind q.value q.vector < p.eps * |q.value| :=
    of_decide_eq_true hc
  calc supNorm (vsub (applyRaw g p.kind q.vector) (vscale q.value q.vector))
      = resNorm g p.kind q.value q.vector := rfl
    _ ≤ p.eps * |q.value| := le_of_lt hlt
    _ ≤ p.eps * max 1 |q.value| :=
        mul_le_mul_of_nonneg_left (le_max_right 1 |q.value|) heps

/-- Concrete evaluation of C2 on the single-edge graph: the converged
pair (value 2, vector `[1, 1]`, residual 1) meets the relative bound
with tolerance 1. -/
theorem accepted_pairs_meet_relative_bound_witness :
    supNorm (vsub (applyRaw gW pW.kind qW.vector) (vscale qW.value qW.vector))
      ≤ pW.eps * max 1 |qW.value| :=
  accepted_pairs_meet_relative_bound gW pW coW (by with_unfolding_all decide)
    qW (by with_unfolding_all decide) (by with_unfolding_all decide)

/-- C4: the solve reports status `Converged` exactly when at least the
requested `k` pairs carry a set convergence flag (so non-convergence is
never reported as success), and the result always carries per-pair
convergence flags that agree with the acceptance test recomputed from
the pair itself (the partial set is returned with honest flags, not
silently truncated). -/
theorem solve_explicit_convergence_status (g : Graph) (p : EigParams)
    (co : Collab) :
    ((solve g p co).status = SolveStatus.Converged
      ↔ p.k ≤ countConverged (solve g p co).pairs)
    ∧ ∀ q ∈ (solve g p co).pairs,
        q.converged
          = decide (resNorm g p.kind q.value q.vector < p.eps * |q.value|) :=
  ⟨outerLoop_status g p co p.maxIter [], fun q hq =>
    solve_flag_eq_test g p co q hq⟩

/-- Concrete evaluation of C4 on the single-edge graph. -/
theorem solve_explicit_convergence_status_witness :
    ((solve gW pW coW).status = SolveStatus.Converged
      ↔ pW.k ≤ countConverged (solve gW pW coW).pairs)
    ∧ qW.converged
        = decide (resNorm gW pW.kind qW.value qW.vector < pW.eps * |qW.value|) :=
  ⟨(solve_explicit_convergence_status gW pW coW).1,
    (solve_explicit_convergence_status gW pW coW).2 qW
      (by with_unfolding_all decide)⟩

/-- C6: with no restart room (`m = k`, `k` at least 1) the solve ends
with status `Converged` or with status `NotConverged` (the report of an
exhausted controller), the final basis never exceeds `k` vectors, and
the number of pairs reported converged never exceeds the number that
actually meet the tolerance test. -/
theorem solve_no_restart_room (g : Graph) (p : EigParams) (co : Collab)
    (hk : 1 ≤ p.k) (hm : p.m = p.k) :
    ((solve g p co).status = SolveStatus.Converged
        ∨ (solve g p co).status = SolveStatus.NotConverged)
    ∧ (solve g p co).basisSize ≤ p.k
    ∧ countConverged (solve g p co).pairs
        ≤ (solve g p co).pairs.countP
            (fun q => decide (resNorm g p.kind q.value q.vector
              < p.eps * |q.value|)) := by
  refine ⟨?_, ?_, ?_⟩
  · cases h : (solve g p co).status
    · exact Or.inl rfl
    · exact Or.inr rfl
  · have hm1 : 1 ≤ p.m := hm ▸ hk
    have := outerLoop_basis_le g p co hm1 p.maxIter [] (by simpa using hm1)
    rw [hm] at this
    exact this
  · refine le_of_eq (List.countP_congr fun q hq => ?_)
    rw [solve_flag_eq_test g p co q hq]

/-- Concrete evaluation of C6 with `m = k = 1` on the single-edge
graph. -/
theorem solve_no_restart_room_witness :
    ((solve gW pW6 coW).status = SolveStatus.Converged
        ∨ (solve gW pW6 coW).status = SolveStatus.NotConverged)
    ∧ (solve gW pW6 coW).basisSize ≤ pW6.k
    ∧ countConverged (solve gW pW6 coW).pairs
        ≤ (solve gW pW6 coW).pairs.countP
            (fun q => decide (resNorm gW pW6.kind q.value q.vector
              < pW6.eps * |q.value|)) :=
  solve_no_restart_room gW pW6 coW (by decide) (by decide)

/-- C7: the solve is a pure function of its inputs, so two runs with
the same Graph, parameters and collaborator produce pairwise identical
eigenvalues (hence within any nonnegative tolerance) and identical
eigenvectors (hence equal up to a sign factor). -/
theorem solve_repeat_identical (g : Graph) (p : EigParams) (co : Collab)
    (tol : ℚ) (ht : 0 ≤ tol) (i : ℕ) :
    |((solve g p co).pairs.getD i default).value
        - ((solve g p co).pairs.getD i default).value| ≤ tol
    ∧ ∃ s : ℚ, (s = 1 ∨ s = -1)
        ∧ ((solve g p co).pairs.getD i default).vector
            = vscale s ((solve g p co).pairs.getD i default).vector := by
  refine ⟨?_, 1, Or.inl rfl, ?_⟩
  · simpa using ht
  · simp [vscale]

/-- Concrete evaluation of C7 on the single-edge graph with tolerance
zero. -/
theorem solve_repeat_identical_witness :
    |((solve gW pW coW).pairs.getD 0 default).value
        - ((solve gW pW coW).pairs.getD 0 default).value| ≤ (0 : ℚ)
    ∧ ∃ s : ℚ, (s = 1 ∨ s = -1)
        ∧ ((solve gW pW coW).pairs.getD 0 default).vector
            = vscale s ((solve gW pW coW).pairs.getD 0 default).vector :=
  solve_repeat_identical gW pW coW 0 le_rfl 0

/-- C8: in the controller state machine, a state admits no transition
exactly when its phase is Converged or Exhausted (these are the only
terminal phases), and from a terminal state any number of further steps
leaves the state unchanged, so no execution re-enters Expanding,
Projecting or Restarting after a terminal phase. -/
theorem controller_terminal_states (g : Graph) (p : EigParams)
    (co : Collab) (s : CtrlState) :
    (ctrlStep g p co s = none
      ↔ (s.phase = CtrlPhase.converged ∨ s.phase = CtrlPhase.exhausted))
    ∧ ∀ n : ℕ, (s.phase = CtrlPhase.converged ∨ s.phase = CtrlPhase.exhausted) →
        ctrlIter g p co n s = s := by
  have hnone : (s.phase = CtrlPhase.converged ∨ s.phase = CtrlPhase.exhausted)
      → ctrlStep g p co s = none := by
    intro h
    rcases h with hp | hp <;> simp [ctrlStep, hp]
  refine ⟨⟨?_, hnone⟩, ?_⟩
  · intro h
    cases hp : s.phase
    · simp [ctrlStep, hp] at h
    · simp [ctrlStep, hp] at h
    · rw [ctrlStep] at h
      rw [hp] at h
      simp only at h
      split_ifs at h <;> simp at h
    · rw [ctrlStep] at h
      rw [hp] at h
      cases hr : s.restartsLeft <;> simp [hr] at h
    · exact Or.inl rfl
    · exact Or.inr rfl
  · intro n h
    cases n with
    | zero => rfl
    | succ n => simp [ctrlIter, hnone h]

/-- Concrete evaluation of C8: five controller steps from a Converged
state leave it unchanged. -/
theorem controller_terminal_states_witness :
    ctrlIter gW pW coW 5 sW = sW :=
  (controller_terminal_states gW pW coW sW).2 5 (Or.inl rfl)

lemma adjCountE_le_one (es : List (ℕ × ℕ))
    (hpw : List.Pairwise
      (fun e f => ¬((f.1 = e.1 ∧ f.2 = e.2) ∨ (f.1 = e.2 ∧ f.2 = e.1))) es)
    (i j : ℕ) : adjCountE es i j ≤ 1 := by
  induction es with
  | nil => simp [adjCountE]
  | cons e es ih =>
      obtain ⟨he, hpw2⟩ := List.pairwise_cons.mp hpw
      rw [adjCountE, List.countP_cons]
      by_cases hp : (e.1 = i ∧ e.2 = j) ∨ (e.1 = j ∧ e.2 = i)
      · have h0 : List.countP
            (fun f => decide ((f.1 = i ∧ f.2 = j) ∨ (f.1 = j ∧ f.2 = i))) es
              = 0 := by
          rw [List.countP_eq_zero]
          intro f hf
          simp only [decide_eq_true_eq]
          rintro (⟨h3, h4⟩ | ⟨h3, h4⟩) <;> rcases hp with ⟨h1, h2⟩ | ⟨h1, h2⟩
          · exact he f hf (Or.inl ⟨h3.trans h1.symm, h4.trans h2.symm⟩)
          · exact he f hf (Or.inr ⟨h3.trans h2.symm, h4.trans h1.symm⟩)
          · exact he f hf (Or.inr ⟨h3.trans h2.symm, h4.trans h1.symm⟩)
          · exact he f hf (Or.inl ⟨h3.trans h1.symm, h4.trans h2.symm⟩)
        rw [h0]
        simp [hp]
      · have h1 := ih hpw2
        rw [adjCountE] at h1
        simpa [hp] using h1

lemma adjB_iff_countPos (g : Graph) (i j : ℕ) :
    g.adjB i j = true ↔ 0 < adjCountE g.edges i j := by
  rw [Graph.adjB, List.any_eq_true, adjCountE, List.countP_pos_iff]

lemma adjCountE_eq_adjIndicator (g : Graph) (hw : g.wfSimple) (i j : Fin g.n) :
    (adjCountE g.edges i j : ℚ)
      = if (g.toSimpleGraph).Adj i j then 1 else 0 := by
  by_cases hij : (i : ℕ) = (j : ℕ)
  · have h0 : adjCountE g.edges i j = 0 := by
      rw [adjCountE, List.countP_eq_zero]
      intro e he
      have hne := (hw.1 e he).2.2
      simp only [decide_eq_true_eq]
      rintro (⟨h1, h2⟩ | ⟨h1, h2⟩) <;> exact hne (by omega)
    have hadj : ¬(g.toSimpleGraph).Adj i j := fun h => h.1 (Fin.val_inj.mp hij)
    simp [h0, hadj]
  · by_cases hb : g.adjB i j = true
    · have hpos := (adjB_iff_countPos g i j).mp hb
      have hle := adjCountE_le_one g.edges hw.2 i j
      have h1 : adjCountE g.edges i j = 1 := le_antisymm hle hpos
      have hadj : (g.toSimpleGraph).Adj i j :=
        ⟨fun h => hij (congrArg Fin.val h), hb⟩
      simp [h1, hadj]
    · have h0 : adjCountE g.edges i j = 0 := by
        by_contra h
        exact hb ((adjB_iff_countPos g i j).mpr (Nat.pos_of_ne_zero h))
      have hadj : ¬(g.toSimpleGraph).Adj i j := fun h => hb h.2
      simp [h0, hadj]

lemma single_adj_card (n u v : ℕ) (h1 : u < n) (h2 : v < n) (hne : u ≠ v)
    (i : ℕ) :
    ∑ j ∈ Finset.range n, (adjCountE [(u, v)] i j : ℚ)
      = (if u = i then 1 else 0) + (if v = i then 1 else 0) := by
  have hstep : ∀ j ∈ Finset.range n, (adjCountE [(u, v)] i j : ℚ)
      = (if u = i ∧ v = j then (1 : ℚ) else 0)
        + (if u = j ∧ v = i then 1 else 0) :=
    fun j _ => adjCountE_single u v i j hne
  rw [Finset.sum_congr rfl hstep, Finset.sum_add_distrib]
  congr 1
  · by_cases hu : u = i
    · subst hu
      have h := sum_indicator_range n v (fun _ => (1 : ℚ)) h2
      simp only [mul_one] at h
      simpa using h
    · simp [hu]
  · by_cases hv : v = i
    · subst hv
      have h := sum_indicator_range n u (fun _ => (1 : ℚ)) h1
      simp only [mul_one] at h
      simpa using h
    · simp [hv]

lemma degSumE_eq_sum (n : ℕ) (es : List (ℕ × ℕ))
    (hb : ∀ e ∈ es, e.1 < n ∧ e.2 < n ∧ e.1 ≠ e.2) (i : ℕ) :
    (degSumE es i : ℚ) = ∑ j ∈ Finset.range n, (adjCountE es i j : ℚ) := by
  induction es with
  | nil => simp [degSumE, adjCountE]
  | cons e es ih =>
      obtain ⟨u, v⟩ := e
      obtain ⟨h1, h2, hne⟩ := hb (u, v) (List.mem_cons_self _ _)
      have hb2 : ∀ f ∈ es, f.1 < n ∧ f.2 < n ∧ f.1 ≠ f.2 := fun f hf =>
        hb f (List.mem_cons_of_mem _ hf)
      have hsplit : ∀ j ∈ Finset.range n, (adjCountE ((u, v) :: es) i j : ℚ)
          = (adjCountE [(u, v)] i j : ℚ) + (adjCountE es i j : ℚ) := by
        intro j _
        have hN : adjCountE ((u, v) :: es) i j
            = adjCountE [(u, v)] i j + adjCountE es i j := by
          rw [adjCountE, adjCountE, adjCountE, List.countP_cons,
            List.countP_cons, List.countP_nil]
          omega
        rw [hN]
        push_cast
        ring
      have hN2 : degSumE ((u, v) :: es) i
          = ((if u = i then 1 else 0) + (if v = i then 1 else 0))
            + degSumE es i := by
        simp [degSumE] <;> omega
      calc (degSumE ((u, v) :: es) i : ℚ)
          = ((if u = i then (1 : ℚ) else 0) + (if v = i then 1 else 0))
            + (degSumE es i : ℚ) := by
            rw [hN2]
            push_cast
            by_cases hu : u = i <;> by_cases hv : v = i <;> simp [hu, hv]
        _ = (∑ j ∈ Finset.range n, (adjCountE [(u, v)] i j : ℚ))
            + ∑ j ∈ Finset.range n, (adjCountE es i j : ℚ) := by
            rw [single_adj_card n u v h1 h2 hne i, ih hb2]
        _ = ∑ j ∈ Finset.range n, (adjCountE ((u, v) :: es) i j : ℚ) := by
            rw [← Finset.sum_add_distrib]
            exact (Finset.sum_congr rfl hsplit).symm

lemma degSumE_eq_degree (g : Graph) (hw : g.wfSimple) (i : Fin g.n) :
    (degSumE g.edges i : ℚ) = ((g.toSimpleGraph).degree i : ℚ) := by
  rw [degSumE_eq_sum g.n g.edges hw.1 i,
    SimpleGraph.degree_eq_sum_if_adj,
    Finset.sum_range (fun j => (adjCountE g.edges i j : ℚ))]
  exact Finset.sum_congr rfl fun j _ => adjCountE_eq_adjIndicator g hw i j

lemma lapMatrixOf_eq (g : Graph) (hw : g.wfSimple) :
    lapMatrixOf g = (g.toSimpleGraph).lapMatrix ℝ := by
  ext i j
  rw [lapMatrixOf, Matrix.of_apply, SimpleGraph.lapMatrix, Matrix.sub_apply,
    SimpleGraph.degMatrix, SimpleGraph.adjMatrix_apply]
  simp only [matEntry, entryE]
  have hDnat : degSumE g.edges i = (g.toSimpleGraph).degree i := by
    exact_mod_cast degSumE_eq_degree g hw i
  by_cases hij : i = j
  · subst hij
    have hcnt : adjCountE g.edges i i = 0 := by
      have h := adjCountE_eq_adjIndicator g hw i i
      rw [if_neg (SimpleGraph.irrefl _)] at h
      exact_mod_cast h
    rw [if_pos rfl, hDnat, hcnt, Matrix.diagonal_apply_eq,
      if_neg (SimpleGraph.irrefl _)]
    push_cast
    ring
  · have hvne : ¬(i : ℕ) = (j : ℕ) := fun h => hij (Fin.val_inj.mp h)
    rw [if_neg hvne, Matrix.diagonal_apply_ne _ hij]
    have hAQ := adjCountE_eq_adjIndicator g hw i j
    by_cases hadj : (g.toSimpleGraph).Adj i j
    · rw [if_pos hadj] at hAQ
      have : adjCountE g.edges i j = 1 := by exact_mod_cast hAQ
      rw [this, if_pos hadj]
      push_cast
      ring
    · rw [if_neg hadj] at hAQ
      have : adjCountE g.edges i j = 0 := by exact_mod_cast hAQ
      rw [this, if_neg hadj]
      push_cast
      ring

lemma lap_eig_nonneg (g : Graph) (hw : g.wfSimple) (mu : ℝ)
    (v : Fin g.n → ℝ) (hv : v ≠ 0)
    (heig : (lapMatrixOf g).mulVec v = mu • v) : 0 ≤ mu := by
  rw [lapMatrixOf_eq g hw] at heig
  have hps := SimpleGraph.posSemidef_lapMatrix ℝ (g.toSimpleGraph)
  have h := hps.2 v
  rw [heig, Matrix.dotProduct_smul] at h
  have hsv : star v = v := funext fun k => by simp
  rw [hsv, smul_eq_mul] at h
  have h0 : 0 ≤ Matrix.dotProduct v v := by
    rw [Matrix.dotProduct]
    exact Finset.sum_nonneg fun k _ => mul_self_nonneg (v k)
  have hne0 : Matrix.dotProduct v v ≠ 0 := fun hz =>
    hv (Matrix.dotProduct_self_eq_zero.mp hz)
  have hpos : 0 < Matrix.dotProduct v v := lt_of_le_of_ne h0 (Ne.symm hne0)
  exact (mul_nonneg_iff_of_pos_right hpos).mp h

lemma lap_ker_eq_components (g : Graph) (hw : g.wfSimple) :
    Module.finrank ℝ (LinearMap.ker (Matrix.toLin' (lapMatrixOf g)))
      = numComponents g := by
  rw [numComponents, lapMatrixOf_eq g hw]
  exact (SimpleGraph.card_ConnectedComponent_eq_rank_ker_lapMatrix
    g.toSimpleGraph).symm

lemma twoTriangles_wfSimple : twoTriangles.wfSimple := by
  constructor <;> decide

lemma twoTriangles_numComponents : numComponents twoTriangles = 2 := by
  decide

/-- C5: for every well-formed undirected unweighted graph, every
eigenvalue of the Laplacian structural matrix is nonnegative and the
multiplicity of eigenvalue 0 (the dimension of the kernel) equals the
number of connected components; in particular for the two disjoint
triangles the graph has 2 components and the Laplacian kernel has
dimension exactly 2. -/
theorem laplacian_psd_kernel_components (g : Graph) (hw : g.wfSimple) :
    (∀ (mu : ℝ) (v : Fin g.n → ℝ), v ≠ 0 →
        (lapMatrixOf g).mulVec v = mu • v → 0 ≤ mu)
    ∧ Module.finrank ℝ (LinearMap.ker (Matrix.toLin' (lapMatrixOf g)))
        = numComponents g
    ∧ numComponents twoTriangles = 2
    ∧ Module.finrank ℝ
        (LinearMap.ker (Matrix.toLin' (lapMatrixOf twoTriangles))) = 2 :=
  ⟨fun mu v hv heig => lap_eig_nonneg g hw mu v hv heig,
    lap_ker_eq_components g hw,
    twoTriangles_numComponents,
    by rw [lap_ker_eq_components twoTriangles twoTriangles_wfSimple,
      twoTriangles_numComponents]⟩

/-- Concrete evaluation of C5 at the two-triangle graph. -/
theorem laplacian_psd_kernel_components_witness :
    numComponents twoTriangles = 2
    ∧ Module.finrank ℝ
        (LinearMap.ker (Matrix.toLin' (lapMatrixOf twoTriangles))) = 2 :=
  ⟨(laplacian_psd_kernel_components twoTriangles
      (by constructor <;> decide)).2.2.1,
    (laplacian_psd_kernel_components twoTriangles
      (by constructor <;> decide)).2.2.2⟩
